import Mathlib

/-!
Verification of the PalmSens plan-execution engine (`run.py`), shallowly
embedded in Lean 4.

Python dictionaries are mutable heap objects; we model the heap as a list of
dictionary contents, a dictionary as an insertion-ordered association list,
and a reference as an index into the heap.  The sweep-expansion logic of
`run_channel` (run.py lines 138-195) is translated statement by statement,
including where the code copies (`lvl.copy()`, `dict(base)`) versus where it
aliases, so that frame properties about mutation are meaningful.
-/

namespace PalmSens

/-- A Python value as it appears in plan/step/parameter structures.
`ref` is a reference to a heap-allocated dictionary; `obj` models an
instrument method-level object built from keyword arguments
(`pspymethods.multi_step_amperometry_level(**lvl)`), which snapshots the
keyword dictionary at construction time. -/
inductive PVal : Type where
  | num : Int → PVal
  | str : String → PVal
  | bool : Bool → PVal
  | none : PVal
  | ref : Nat → PVal
  | list : List PVal → PVal
  | obj : List (String × PVal) → PVal
  deriving Repr

/-- Content of a Python dictionary: an insertion-ordered association list. -/
abbrev Dict := List (String × PVal)

/-- The heap: dictionary object number `r` has content `h[r]`. -/
abbrev Heap := List Dict

/-- Dictionary lookup `d[k]` (first binding wins; `dictSet` keeps keys unique). -/
def dictGet? (d : Dict) (k : String) : Option PVal :=
  (d.find? (fun p => p.1 == k)).map (fun p => p.2)

/-- Dictionary assignment `d[k] = v`: update in place if the key exists
(keeping its position), otherwise append — Python insertion-order semantics. -/
def dictSet : Dict → String → PVal → Dict
  | [], k, v => [(k, v)]
  | (k₁, v₁) :: d, k, v =>
    if k₁ == k then (k, v) :: d else (k₁, v₁) :: dictSet d k v

/-- The comprehension `{k: v for k, v in d.items() if k != k0}`. -/
def dictDrop (d : Dict) (k0 : String) : Dict :=
  d.filter (fun p => p.1 != k0)

/-- Content of the dictionary object referenced by `r`. -/
def heapGet (h : Heap) (r : Nat) : Dict :=
  (h[r]?).getD []

/-- Overwrite the content of the dictionary object referenced by `r`. -/
def heapSet (h : Heap) (r : Nat) (d : Dict) : Heap :=
  h.set r d

/-- Normalize a Python sequence index for a sequence of length `n`:
a non-negative index is used directly, a negative index counts from the
back, anything else is an IndexError (`Option.none`). -/
def pyNorm (n : Nat) (i : Int) : Option Nat :=
  if 0 ≤ i then
    (if i < (n : Int) then some i.toNat else Option.none)
  else
    (if -(n : Int) ≤ i then some ((n : Int) + i).toNat else Option.none)

/-- Python `str(...)` as used in f-string titles, for the scalar values that
occur as sweep values and repeat indices.  (Container values never reach a
title in well-formed plans; they are rendered opaquely.) -/
def pyStr : PVal → String
  | PVal.num n => toString n
  | PVal.str s => s
  | PVal.bool b => if b then "True" else "False"
  | PVal.none => "None"
  | PVal.ref _ => "<dict>"
  | PVal.list _ => "<list>"
  | PVal.obj _ => "<object>"

/-- Python `str.lower()` for the ASCII method names that reach run titles. -/
def pyLower (s : String) : String := String.mk (s.data.map Char.toLower)

/-- Python exceptions raised by the expansion code. -/
inductive PyErr : Type where
  | keyError : String → PyErr
  | indexError : PyErr
  | typeError : String → PyErr
  deriving Repr, DecidableEq

/-- One plan step, with exactly the keys `run_channel` reads.  A field is
`Option.none` when the key is absent from the step dictionary; `params` and
`base_params` are references to heap-allocated parameter dictionaries. -/
structure Step : Type where
  method : Option String := Option.none
  type : Option String := Option.none
  repeats : Option Int := Option.none
  concentration : Option PVal := Option.none
  params : Option Nat := Option.none
  base_params : Option Nat := Option.none
  sweep_param : Option String := Option.none
  sweep_values : Option (List PVal) := Option.none
  level_index : Option Int := Option.none
  modify_levels : Option Bool := Option.none
  sweep_potential : Option Bool := Option.none
  sweep_duration : Option Bool := Option.none
  deriving Repr

/-- One concrete run handed to `run_one`: its title, method, the content of
its parameter dictionary at emission time, and the repeat index. -/
structure Run : Type where
  title : String
  method : String
  params : Dict
  repeat_index : Int
  deriving Repr

/-- Result of expanding one step (or a sequence of steps): runs emitted
before any exception, the resulting heap, and the exception if one escaped. -/
structure StepResult : Type where
  runs : List Run
  heap : Heap
  err : Option PyErr
  deriving Repr

/-- The repeat loop `for i in range(1, reps + 1)` — empty when `reps < 1`. -/
def repIndices (reps : Int) : List Int :=
  (List.range reps.toNat).map (fun i => Int.ofNat i + 1)

/-- The comprehension `[lvl.copy() for lvl in levels]`: allocate a fresh copy
of each level dictionary, returning the new heap and the fresh references.
An element that is not a dictionary makes `.copy()` raise. -/
def copyLevels (h : Heap) : List PVal → Except PyErr (Heap × List Nat)
  | [] => Except.ok (h, [])
  | PVal.ref r :: rest =>
    match copyLevels (h ++ [heapGet h r]) rest with
    | Except.ok (h₂, rs) => Except.ok (h₂, h.length :: rs)
    | Except.error e => Except.error e
  | _ :: _ => Except.error (PyErr.typeError "level")

/-- The statement `raw[i][k] = v` where `raw` is a list of references to
level dictionaries: Python indexing (negative wraps from the back), then an
in-place field update on the referenced dictionary. -/
def setLevelField (h : Heap) (raw : List Nat) (i : Int) (k : String) (v : PVal) :
    Except PyErr Heap :=
  match pyNorm raw.length i with
  | Option.none => Except.error PyErr.indexError
  | some j =>
    let r := raw.getD j 0
    Except.ok (heapSet h r (dictSet (heapGet h r) k v))

/-- The comprehension `[multi_step_amperometry_level(**lvl) for lvl in raw]`
for a raw level list that may hold arbitrary values: each element must be a
dictionary, whose content the constructor snapshots. -/
def mkLevelObjs (h : Heap) : List PVal → Except PyErr (List PVal)
  | [] => Except.ok []
  | PVal.ref r :: rest =>
    match mkLevelObjs h rest with
    | Except.ok objs => Except.ok (PVal.obj (heapGet h r) :: objs)
    | Except.error e => Except.error e
  | _ :: _ => Except.error (PyErr.typeError "level")

/-- Loop body of the MSA level sweep (run.py lines 168-184) for one swept
value `val`: copy the level dictionaries, overwrite the targeted field(s) of
`raw[lvl_idx]` in place, rebuild the parameter dictionary without `levels`,
attach `_raw_levels` (the references) and the materialized `levels`, then
emit one run per repeat. -/
def msaSweepValue (h : Heap) (bref : Nat) (sweepPot sweepDur : Bool)
    (lvlIdx : Int) (m : String) (reps : Int) (val : PVal) :
    Except PyErr (List Run × Heap) :=
  match dictGet? (heapGet h bref) "levels" with
  | Option.none => Except.error (PyErr.keyError "levels")
  | some (PVal.list lvls) =>
    match copyLevels h lvls with
    | Except.error e => Except.error e
    | Except.ok (h₁, raw) =>
      match (if sweepPot then setLevelField h₁ raw lvlIdx "level" val
             else Except.ok h₁) with
      | Except.error e => Except.error e
      | Except.ok h₂ =>
        match (if sweepDur then setLevelField h₂ raw lvlIdx "duration" val
               else Except.ok h₂) with
        | Except.error e => Except.error e
        | Except.ok h₃ =>
          let params₀ := dictDrop (heapGet h₃ bref) "levels"
          let params₁ :=
            dictSet params₀ "_raw_levels" (PVal.list (raw.map PVal.ref))
          let objs := raw.map (fun r => PVal.obj (heapGet h₃ r))
          let params := dictSet params₁ "levels" (PVal.list objs)
          Except.ok ((repIndices reps).map (fun i =>
            { title := pyLower m ++ "_lvl" ++ toString (lvlIdx + 1) ++ "_" ++
                pyStr val ++ "_run" ++ toString i
              method := m
              params := params
              repeat_index := i }), h₃)
  | some _ => Except.error (PyErr.typeError "levels")

/-- The MSA sweep loop `for val in step["sweep_values"]`: runs accumulate in
order; an exception aborts the remaining values (runs of the failing value
are never reached, since every failure point precedes its repeat loop). -/
def msaSweepLoop (bref : Nat) (sweepPot sweepDur : Bool) (lvlIdx : Int)
    (m : String) (reps : Int) : Heap → List PVal → StepResult
  | h, [] => ⟨[], h, Option.none⟩
  | h, val :: rest =>
    match msaSweepValue h bref sweepPot sweepDur lvlIdx m reps val with
    | Except.error e => ⟨[], h, some e⟩
    | Except.ok (runs, h₂) =>
      let r := msaSweepLoop bref sweepPot sweepDur lvlIdx m reps h₂ rest
      ⟨runs ++ r.runs, r.heap, r.err⟩

/-- Loop body of the generic parameter sweep (run.py lines 186-193) for one
swept value: `params = dict(base)` copies the base dictionary content, the
swept key is set on the copy, and one run is emitted per repeat. -/
def genSweepValue (h : Heap) (bref : Nat) (spar : String) (m : String)
    (reps : Int) (val : PVal) : List Run :=
  let params := dictSet (heapGet h bref) spar val
  (repIndices reps).map (fun i =>
    { title := pyLower m ++ "_" ++ spar ++ pyStr val ++ "_run" ++ toString i
      method := m
      params := params
      repeat_index := i })

/-- The `type == "single"` branch (run.py lines 146-162): for MSA the raw
level list is read from `params["levels"]`, a new dictionary without
`levels` is built, `_raw_levels` aliases the original list and `levels`
holds the materialized level objects; otherwise the step's own parameter
dictionary is passed through.  One run per repeat. -/
def expandSingle (h : Heap) (idxStep : Nat) (m : String) (reps : Int)
    (st : Step) : StepResult :=
  match st.params with
  | Option.none => ⟨[], h, some (PyErr.keyError "params")⟩
  | some pref =>
    let pdict := heapGet h pref
    let mkRuns := fun (params : Dict) =>
      (repIndices reps).map (fun i =>
        { title := pyLower m ++ "_step" ++ toString idxStep ++ "_run" ++
            toString i
          method := m
          params := params
          repeat_index := i : Run })
    if m == "MSA" then
      match dictGet? pdict "levels" with
      | Option.none => ⟨[], h, some (PyErr.keyError "levels")⟩
      | some (PVal.list raw) =>
        match mkLevelObjs h raw with
        | Except.error e => ⟨[], h, some e⟩
        | Except.ok objs =>
          let params := dictSet
            (dictSet (dictDrop pdict "levels") "_raw_levels" (PVal.list raw))
            "levels" (PVal.list objs)
          ⟨mkRuns params, h, Option.none⟩
      | some _ => ⟨[], h, some (PyErr.typeError "levels")⟩
    else
      ⟨mkRuns pdict, h, Option.none⟩

/-- Expansion of one step, 1-indexed in its plan: the body of the loop in
`run_channel` (run.py lines 140-195).  A missing mandatory key raises a
KeyError; an unknown `type` only prints a warning and produces nothing. -/
def expandStep (h : Heap) (idxStep : Nat) (st : Step) : StepResult :=
  match st.method with
  | Option.none => ⟨[], h, some (PyErr.keyError "method")⟩
  | some m =>
    let typ := st.type.getD "single"
    let reps := st.repeats.getD 1
    if typ == "single" then
      expandSingle h idxStep m reps st
    else if typ == "sweep" then
      match st.base_params with
      | Option.none => ⟨[], h, some (PyErr.keyError "base_params")⟩
      | some bref =>
        if m == "MSA" && st.modify_levels.getD false then
          match st.level_index with
          | Option.none => ⟨[], h, some (PyErr.keyError "level_index")⟩
          | some lvlIdx =>
            match st.sweep_values with
            | Option.none => ⟨[], h, some (PyErr.keyError "sweep_values")⟩
            | some vals =>
              msaSweepLoop bref (st.sweep_potential.getD false)
                (st.sweep_duration.getD false) lvlIdx m reps h vals
        else
          match st.sweep_param with
          | Option.none => ⟨[], h, some (PyErr.keyError "sweep_param")⟩
          | some spar =>
            match st.sweep_values with
            | Option.none => ⟨[], h, some (PyErr.keyError "sweep_values")⟩
            | some vals =>
              ⟨(vals.map (genSweepValue h bref spar m reps)).flatten, h,
                Option.none⟩
    else
      ⟨[], h, Option.none⟩

/-- The step loop of `run_channel` (run.py line 140), starting at step index
`idxStep`: steps run strictly in order, and an exception escaping one step
aborts the remaining steps of the sequence. -/
def runSeq (idxStep : Nat) : Heap → List Step → StepResult
  | h, [] => ⟨[], h, Option.none⟩
  | h, st :: rest =>
    let r := expandStep h idxStep st
    match r.err with
    | some e => ⟨r.runs, r.heap, some e⟩
    | Option.none =>
      let r₂ := runSeq (idxStep + 1) r.heap rest
      ⟨r.runs ++ r₂.runs, r₂.heap, r₂.err⟩

/-- `run_channel` for one channel: its plan's steps, 1-indexed. -/
def run_channel (h : Heap) (plan : List Step) : StepResult :=
  runSeq 1 h plan

/-- The method dispatch table `METHOD_FUNC_MAP` (run.py lines 21-27), keyed
by method name; the payload names the `pspymethods` function. -/
def METHOD_FUNC_MAP : List (String × String) :=
  [("LSV", "linear_sweep_voltammetry"),
   ("CV", "cyclic_voltammetry"),
   ("SWV", "square_wave_voltammetry"),
   ("CA", "chronoamperometry"),
   ("MSA", "multi_step_amperometry")]

/-- The lookup `METHOD_FUNC_MAP[method_name]` performed inside `run_one`
(run.py line 113): a KeyError for an unrecognized method, raised only when a
run of that method is actually executed. -/
def methodLookup (m : String) : Except PyErr String :=
  match METHOD_FUNC_MAP.find? (fun p => p.1 == m) with
  | some p => Except.ok p.2
  | Option.none => Except.error (PyErr.keyError m)

/-- Plan loading as `main` performs it (run.py lines 256-258 / 316-318): the
parsed `sequence` is taken as-is and every step merely receives the
concentration tag.  No structural validation of `method` or `type` happens
here. -/
def loadPlan (conc : PVal) (sequence : List Step) : Except PyErr (List Step) :=
  Except.ok (sequence.map (fun st => { st with concentration := some conc }))

/-- Observable cleanup actions of the orchestrator's final section. -/
inductive CleanupEvent : Type where
  | disconnected : Nat → CleanupEvent
  | sessionSaved : CleanupEvent
  deriving Repr, DecidableEq

/-- The tail of `main` (run.py lines 362-377): `await asyncio.gather(*tasks)`
re-raises the exception of any failed channel task, in which case control
leaves `main` and the disconnect gather (line 374) and
`save_session_file` (line 376) are never reached; only when every channel
task finishes cleanly are all managers disconnected and the session saved. -/
def gatherCleanup (outcomes : List (Nat × Option PyErr)) :
    List CleanupEvent × Option PyErr :=
  match outcomes.findSome? (fun p => p.2) with
  | some e => ([], some e)
  | Option.none =>
    (outcomes.map (fun p => CleanupEvent.disconnected p.1) ++
      [CleanupEvent.sessionSaved], Option.none)

/-- The orchestrator run over concrete channel assignments: each channel's
task is its `run_channel` over its own plan, then the cleanup section. -/
def orchestrate (assignments : List (Nat × Heap × List Step)) :
    List CleanupEvent × Option PyErr :=
  gatherCleanup (assignments.map (fun a => (a.1, (run_channel a.2.1 a.2.2).err)))

/-- The field overwrites lines 170-173 perform on the targeted level's
content: `level` receives the swept value when `sweep_potential` is set,
then `duration` when `sweep_duration` is set. -/
def sweepOverwrite (sweepPot sweepDur : Bool) (v : PVal) (d : Dict) : Dict :=
  let d₁ := if sweepPot then dictSet d "level" v else d
  if sweepDur then dictSet d₁ "duration" v else d₁

/-! Basic lemmas about the dictionary and heap operations. -/

theorem dictGet?_cons (k₁ : String) (v₁ : PVal) (d : Dict) (k : String) :
    dictGet? ((k₁, v₁) :: d) k = if k₁ = k then some v₁ else dictGet? d k := by
  by_cases h : k₁ = k
  · rw [if_pos h]
    unfold dictGet?
    rw [List.find?_cons_of_pos _ (by simp [h])]
    rfl
  · rw [if_neg h]
    unfold dictGet?
    rw [List.find?_cons_of_neg _ (by simp [h])]

theorem dictSet_cons (k₁ : String) (v₁ : PVal) (d : Dict) (k : String) (v : PVal) :
    dictSet ((k₁, v₁) :: d) k v =
      if k₁ = k then (k, v) :: d else (k₁, v₁) :: dictSet d k v := by
  by_cases h : k₁ = k <;> simp [dictSet, h]

theorem dictGet?_dictSet_self (d : Dict) (k : String) (v : PVal) :
    dictGet? (dictSet d k v) k = some v := by
  induction d with
  | nil => simp [dictGet?, dictSet, List.find?]
  | cons p d ih =>
    obtain ⟨k₁, v₁⟩ := p
    rw [dictSet_cons]
    by_cases h : k₁ = k
    · simp [h, dictGet?_cons]
    · rw [if_neg h, dictGet?_cons, if_neg h]
      exact ih

theorem dictGet?_dictSet_ne (d : Dict) (k k₂ : String) (v : PVal)
    (h : k₂ ≠ k) : dictGet? (dictSet d k v) k₂ = dictGet? d k₂ := by
  induction d with
  | nil =>
    show dictGet? [(k, v)] k₂ = dictGet? ([] : Dict) k₂
    rw [dictGet?_cons, if_neg (Ne.symm h)]
  | cons p d ih =>
    obtain ⟨k₁, v₁⟩ := p
    rw [dictSet_cons]
    by_cases hk : k₁ = k
    · subst hk
      rw [if_pos rfl, dictGet?_cons, dictGet?_cons,
        if_neg (Ne.symm h), if_neg (Ne.symm h)]
    · rw [if_neg hk, dictGet?_cons, dictGet?_cons]
      by_cases hk₂ : k₁ = k₂
      · simp [hk₂]
      · rw [if_neg hk₂, if_neg hk₂]
        exact ih

theorem dictGet?_dictDrop_ne (d : Dict) (k0 k : String) (h : k ≠ k0) :
    dictGet? (dictDrop d k0) k = dictGet? d k := by
  induction d with
  | nil => simp [dictDrop]
  | cons p d ih =>
    obtain ⟨k₁, v₁⟩ := p
    by_cases hk : k₁ = k0
    · have : dictDrop ((k₁, v₁) :: d) k0 = dictDrop d k0 := by
        simp [dictDrop, hk]
      rw [this, ih, dictGet?_cons, if_neg (by rw [hk]; exact Ne.symm h)]
    · have : dictDrop ((k₁, v₁) :: d) k0 = (k₁, v₁) :: dictDrop d k0 := by
        simp [dictDrop, hk]
      rw [this, dictGet?_cons, dictGet?_cons]
      by_cases hk₂ : k₁ = k
      · simp [hk₂]
      · rw [if_neg hk₂, if_neg hk₂, ih]

theorem pyNorm_lt {n : Nat} {i : Int} {j : Nat} (h : pyNorm n i = some j) :
    j < n := by
  unfold pyNorm at h
  split at h
  · split at h
    · simp only [Option.some.injEq] at h
      omega
    · exact absurd h (by simp)
  · split at h
    · simp only [Option.some.injEq] at h
      omega
    · exact absurd h (by simp)

theorem pyNorm_eq_none_iff {n : Nat} {i : Int} :
    pyNorm n i = Option.none ↔ ((n : Int) ≤ i ∨ i < -(n : Int)) := by
  unfold pyNorm
  split <;> split <;> simp <;> omega

theorem pyNorm_of_nonneg {n : Nat} {i : Int} (h0 : 0 ≤ i) (hn : i < (n : Int)) :
    pyNorm n i = some i.toNat := by
  unfold pyNorm
  rw [if_pos h0, if_pos hn]

theorem heapGet_append_left (h : Heap) (l : List Dict) (r : Nat)
    (hr : r < h.length) : heapGet (h ++ l) r = heapGet h r := by
  simp [heapGet, List.getElem?_append_left hr]

theorem heapGet_append_right (h : Heap) (l : List Dict) (t : Nat) :
    heapGet (h ++ l) (h.length + t) = heapGet l t := by
  simp [heapGet, List.getElem?_append_right (Nat.le_add_right _ _)]

theorem heapSet_length (h : Heap) (r : Nat) (d : Dict) :
    (heapSet h r d).length = h.length := by
  simp [heapSet]

theorem getElem?_heapSet_ne (h : Heap) (r : Nat) (d : Dict) (r₂ : Nat)
    (hne : r ≠ r₂) : (heapSet h r d)[r₂]? = h[r₂]? := by
  simp [heapSet, List.getElem?_set_ne hne]

theorem heapGet_heapSet_ne (h : Heap) (r : Nat) (d : Dict) (r₂ : Nat)
    (hne : r ≠ r₂) : heapGet (heapSet h r d) r₂ = heapGet h r₂ := by
  simp [heapGet, getElem?_heapSet_ne h r d r₂ hne]

theorem heapGet_heapSet_self (h : Heap) (r : Nat) (d : Dict)
    (hr : r < h.length) : heapGet (heapSet h r d) r = d := by
  simp [heapGet, heapSet, List.getElem?_set_self hr]

theorem repIndices_length (reps : Int) :
    (repIndices reps).length = reps.toNat := by
  unfold repIndices
  rw [List.length_map, List.length_range]

theorem repIndices_getElem? (reps : Int) (j : Nat) (h : j < reps.toNat) :
    (repIndices reps)[j]? = some ((j : Int) + 1) := by
  unfold repIndices
  rw [List.getElem?_map, List.getElem?_range h]
  rfl

theorem repIndices_eq_nil (reps : Int) (h : reps < 1) : repIndices reps = [] := by
  have h0 : reps.toNat = 0 := by omega
  simp [repIndices, h0]

theorem flatten_blocks_length {α β : Type} (vs : List α) (f : α → List β)
    (B : Nat) (hB : ∀ v ∈ vs, (f v).length = B) :
    ((vs.map f).flatten).length = vs.length * B := by
  induction vs with
  | nil => simp
  | cons v vs ih =>
    have hv := hB v (by simp)
    have hrest := ih (fun w hw => hB w (by simp [hw]))
    simp only [List.map_cons, List.flatten_cons, List.length_append, hv, hrest,
      List.length_cons]
    ring

theorem flatten_blocks_getElem? {α β : Type} (B : Nat) :
    ∀ (vs : List α) (f : α → List β), (∀ v ∈ vs, (f v).length = B) →
      ∀ (i t : Nat) (hi : i < vs.length), t < B →
        ((vs.map f).flatten)[i * B + t]? = (f (vs.get ⟨i, hi⟩))[t]?
  | [], _, _, _, _, hi, _ => absurd hi (by simp)
  | v :: vs, f, hB, 0, t, _, ht => by
    have hv := hB v (by simp)
    simp only [List.map_cons, List.flatten_cons, Nat.zero_mul, Nat.zero_add]
    rw [List.getElem?_append_left (by rw [hv]; exact ht)]
    rfl
  | v :: vs, f, hB, i + 1, t, hi, ht => by
    have hv := hB v (by simp)
    have hi2 : i < vs.length := by simpa using Nat.lt_of_succ_lt_succ hi
    have hidx : (i + 1) * B + t = (f v).length + (i * B + t) := by
      rw [hv]; ring
    simp only [List.map_cons, List.flatten_cons]
    rw [hidx, List.getElem?_append_right (Nat.le_add_right _ _),
      Nat.add_sub_cancel_left]
    exact flatten_blocks_getElem? B vs f (fun w hw => hB w (by simp [hw])) i t
      hi2 ht

theorem set_getD_self {α : Type} (l : List α) (j : Nat) (d : α)
    (hj : j < l.length) : l.set j (l.getD j d) = l := by
  apply List.ext_getElem?
  intro n
  by_cases hn : j = n
  · subst hn
    rw [List.getElem?_set_self (by simpa using hj)]
    simp [List.getD_eq_getElem?_getD, List.getElem?_eq_getElem hj]
  · rw [List.getElem?_set_ne hn]

/-! Lemmas about the allocation performed by `copyLevels`. -/

theorem copyLevels_frame (lvls : List PVal) :
    ∀ (h h₂ : Heap) (rs : List Nat),
      copyLevels h lvls = Except.ok (h₂, rs) →
      (∀ r, r < h.length → h₂[r]? = h[r]?) ∧ h.length ≤ h₂.length ∧
        ∀ x ∈ rs, h.length ≤ x := by
  induction lvls with
  | nil =>
    intro h h₂ rs hok
    simp only [copyLevels, Except.ok.injEq, Prod.mk.injEq] at hok
    obtain ⟨rfl, rfl⟩ := hok
    exact ⟨fun r _ => rfl, Nat.le_refl _, by simp⟩
  | cons c rest ih =>
    intro h h₂ rs hok
    cases c <;> simp only [copyLevels] at hok <;> try cases hok
    case ref r =>
      cases hrec : copyLevels (h ++ [heapGet h r]) rest with
      | error e => rw [hrec] at hok; cases hok
      | ok p =>
        obtain ⟨h₃, rs₂⟩ := p
        rw [hrec] at hok
        simp only [Except.ok.injEq, Prod.mk.injEq] at hok
        obtain ⟨rfl, rfl⟩ := hok
        have ihr := ih (h ++ [heapGet h r]) h₃ rs₂ hrec
        refine ⟨?_, ?_, ?_⟩
        · intro r₂ hr₂
          rw [ihr.1 r₂ (by simp; omega), List.getElem?_append_left hr₂]
        · have h1 : h.length ≤ (h ++ [heapGet h r]).length := by simp
          exact Nat.le_trans h1 ihr.2.1
        · intro x hx
          rcases List.mem_cons.mp hx with hx | hx
          · omega
          · have := ihr.2.2 x hx
            simp at this
            omega

theorem copyLevels_refs (lrefs : List Nat) :
    ∀ (h : Heap), (∀ r ∈ lrefs, r < h.length) →
      copyLevels h (lrefs.map PVal.ref) =
        Except.ok (h ++ lrefs.map (fun r => heapGet h r),
          List.range' h.length lrefs.length) := by
  induction lrefs with
  | nil =>
    intro h _
    simp [copyLevels, List.range']
  | cons r rest ih =>
    intro h hw
    have hrest : ∀ x ∈ rest, x < (h ++ [heapGet h r]).length := by
      intro x hx
      have := hw x (by simp [hx])
      simp
      omega
    simp only [List.map_cons, copyLevels]
    rw [ih (h ++ [heapGet h r]) hrest]
    have hcontents :
        rest.map (fun x => heapGet (h ++ [heapGet h r]) x) =
          rest.map (fun x => heapGet h x) :=
      List.map_congr_left (fun x hx =>
        heapGet_append_left h _ x (hw x (by simp [hx])))
    rw [hcontents]
    simp [List.range'_succ]

theorem setLevelField_range' (s n : Nat) (h : Heap) (i : Int) (k : String)
    (v : PVal) (j : Nat) (hj : pyNorm n i = some j) :
    setLevelField h (List.range' s n) i k v =
      Except.ok (heapSet h (s + j) (dictSet (heapGet h (s + j)) k v)) := by
  have hjn : j < n := pyNorm_lt hj
  unfold setLevelField
  rw [List.length_range', hj]
  simp only [List.getD_eq_getElem?_getD, List.getElem?_range' _ _ hjn,
    Option.getD_some, Nat.one_mul]

theorem setLevelField_err (raw : List Nat) (h : Heap) (i : Int) (k : String)
    (v : PVal) (hj : pyNorm raw.length i = Option.none) :
    setLevelField h raw i k v = Except.error PyErr.indexError := by
  unfold setLevelField
  rw [hj]

theorem map_range'_heapGet (h : Heap) (l : List Dict) (g : Dict → PVal) :
    (List.range' h.length l.length).map (fun r => g (heapGet (h ++ l) r)) =
      l.map g := by
  apply List.ext_getElem?
  intro t
  by_cases ht : t < l.length
  · rw [List.getElem?_map, List.getElem?_range' _ _ (by simpa using ht),
      List.getElem?_map, List.getElem?_eq_getElem ht]
    simp only [Option.map_some', Option.some.injEq, Nat.one_mul]
    rw [heapGet_append_right]
    simp [heapGet, List.getElem?_eq_getElem ht]
  · have hle := Nat.le_of_not_lt ht
    rw [List.getElem?_map, List.getElem?_map,
      List.getElem?_eq_none (by simpa using hle),
      List.getElem?_eq_none hle]
    rfl

/-- The level contents produced by lines 168-173 for one swept value: the
copies of the base levels, with the normalized target position `j`
overwritten according to the sweep flags. -/
def sweptLevels (h : Heap) (lrefs : List Nat) (pot dur : Bool) (v : PVal)
    (j : Nat) : List Dict :=
  (lrefs.map (fun r => heapGet h r)).set j
    (sweepOverwrite pot dur v (heapGet h (lrefs.getD j 0)))

/-- The parameter dictionary every run of one swept value carries; `s` is
the heap position where this value's fresh level copies were allocated. -/
def msaRunParams (s : Nat) (h : Heap) (bref : Nat) (lrefs : List Nat)
    (pot dur : Bool) (v : PVal) (j : Nat) : Dict :=
  dictSet
    (dictSet (dictDrop (heapGet h bref) "levels") "_raw_levels"
      (PVal.list ((List.range' s lrefs.length).map PVal.ref)))
    "levels" (PVal.list ((sweptLevels h lrefs pot dur v j).map PVal.obj))

theorem msaSweepValue_spec (h : Heap) (bref : Nat) (lrefs : List Nat)
    (pot dur : Bool) (k : Int) (v : PVal) (m : String) (reps : Int) (j : Nat)
    (hbr : bref < h.length) (hw : ∀ r ∈ lrefs, r < h.length)
    (hlv : dictGet? (heapGet h bref) "levels" =
      some (PVal.list (lrefs.map PVal.ref)))
    (hj : pyNorm lrefs.length k = some j) :
    msaSweepValue h bref pot dur k m reps v =
      Except.ok
        ((repIndices reps).map (fun i =>
          { title := pyLower m ++ "_lvl" ++ toString (k + 1) ++ "_" ++
              pyStr v ++ "_run" ++ toString i
            method := m
            params := msaRunParams h.length h bref lrefs pot dur v j
            repeat_index := i }),
          h ++ sweptLevels h lrefs pot dur v j) := by
  have hn : j < lrefs.length := pyNorm_lt hj
  have hcs : (lrefs.map (fun r => heapGet h r)).length = lrefs.length := by
    simp
  have hcj : heapGet (lrefs.map (fun r => heapGet h r)) j =
      heapGet h (lrefs.getD j 0) := by
    simp [heapGet, List.getElem?_map, List.getElem?_eq_getElem hn,
      List.getD_eq_getElem?_getD]
  have hga : ∀ (X : List Dict), heapGet (h ++ X) (h.length + j) = heapGet X j :=
    fun X => heapGet_append_right h X j
  have hsa : ∀ (X : List Dict) (d : Dict),
      heapSet (h ++ X) (h.length + j) d = h ++ X.set j d := by
    intro X d
    unfold heapSet
    rw [List.set_append_right _ _ (Nat.le_add_right _ _),
      Nat.add_sub_cancel_left]
  have hgset : ∀ (X : List Dict) (d : Dict), j < X.length →
      heapGet (X.set j d) j = d := by
    intro X d hjX
    simp [heapGet, List.getElem?_set_self (by simpa using hjX)]
  have hobjs : ∀ (X : List Dict), X.length = lrefs.length →
      (List.range' h.length lrefs.length).map
        (fun r => PVal.obj (heapGet (h ++ X) r)) = X.map PVal.obj := by
    intro X hX
    rw [← hX]
    exact map_range'_heapGet h X PVal.obj
  unfold msaSweepValue
  rw [hlv]
  dsimp only
  rw [copyLevels_refs lrefs h hw]
  dsimp only
  cases pot <;> cases dur <;>
    simp only [Bool.false_eq_true, if_false, if_true, reduceIte]
  · -- pot = false, dur = false: no field is overwritten
    rw [heapGet_append_left h _ bref hbr,
      hobjs _ (by simp)]
    unfold msaRunParams sweptLevels sweepOverwrite
    simp only [Bool.false_eq_true, if_false, reduceIte]
    rw [← hcj]
    rw [show heapGet (List.map (fun r => heapGet h r) lrefs) j =
        (List.map (fun r => heapGet h r) lrefs).getD j [] from by
      simp [heapGet, List.getD_eq_getElem?_getD]]
    rw [set_getD_self _ j [] (by simpa using hn)]
  · -- pot = false, dur = true
    rw [setLevelField_range' h.length lrefs.length _ k "duration" v j hj]
    dsimp only
    rw [hga, hcj, hsa]
    rw [heapGet_append_left h _ bref hbr,
      hobjs _ (by simp)]
    unfold msaRunParams sweptLevels sweepOverwrite
    simp only [Bool.false_eq_true, if_false, if_true, reduceIte]
  · -- pot = true, dur = false
    rw [setLevelField_range' h.length lrefs.length _ k "level" v j hj]
    dsimp only
    rw [hga, hcj, hsa]
    rw [heapGet_append_left h _ bref hbr,
      hobjs _ (by simp)]
    unfold msaRunParams sweptLevels sweepOverwrite
    simp only [Bool.false_eq_true, if_false, if_true, reduceIte]
  · -- pot = true, dur = true
    rw [setLevelField_range' h.length lrefs.length _ k "level" v j hj]
    dsimp only
    rw [hga, hcj, hsa]
    rw [setLevelField_range' h.length lrefs.length _ k "duration" v j hj]
    dsimp only
    rw [hga, hgset _ _ (by simpa using hn), hsa, List.set_set]
    rw [heapGet_append_left h _ bref hbr,
      hobjs _ (by simp)]
    unfold msaRunParams sweptLevels sweepOverwrite
    simp only [Bool.false_eq_true, if_false, if_true, reduceIte]

theorem sweptLevels_congr (h h₄ : Heap) (lrefs : List Nat) (pot dur : Bool)
    (v : PVal) (j : Nat) (hw : ∀ r ∈ lrefs, r < h.length)
    (hfr : ∀ r, r < h.length → h₄[r]? = h[r]?) (hn : j < lrefs.length) :
    sweptLevels h₄ lrefs pot dur v j = sweptLevels h lrefs pot dur v j := by
  have hmem : lrefs.getD j 0 ∈ lrefs := by
    rw [List.getD_eq_getElem?_getD, List.getElem?_eq_getElem hn]
    exact List.getElem_mem hn
  unfold sweptLevels
  rw [List.map_congr_left (fun r hr =>
    show heapGet h₄ r = heapGet h r from by
      unfold heapGet
      rw [hfr r (hw r hr)])]
  have hget : heapGet h₄ (lrefs.getD j 0) = heapGet h (lrefs.getD j 0) := by
    unfold heapGet
    rw [hfr _ (hw _ hmem)]
  rw [hget]

theorem msaRunParams_congr (s : Nat) (h h₄ : Heap) (bref : Nat)
    (lrefs : List Nat) (pot dur : Bool) (v : PVal) (j : Nat)
    (hbr : bref < h.length) (hw : ∀ r ∈ lrefs, r < h.length)
    (hfr : ∀ r, r < h.length → h₄[r]? = h[r]?) (hn : j < lrefs.length) :
    msaRunParams s h₄ bref lrefs pot dur v j =
      msaRunParams s h bref lrefs pot dur v j := by
  unfold msaRunParams
  rw [sweptLevels_congr h h₄ lrefs pot dur v j hw hfr hn]
  have : heapGet h₄ bref = heapGet h bref := by
    unfold heapGet
    rw [hfr bref hbr]
  rw [this]

theorem msaSweepValue_noflags (h : Heap) (bref : Nat) (lrefs : List Nat)
    (k : Int) (v : PVal) (m : String) (reps : Int)
    (hw : ∀ r ∈ lrefs, r < h.length)
    (hlv : dictGet? (heapGet h bref) "levels" =
      some (PVal.list (lrefs.map PVal.ref))) :
    ∃ runs, msaSweepValue h bref false false k m reps v =
      Except.ok (runs, h ++ lrefs.map (fun r => heapGet h r)) := by
  unfold msaSweepValue
  rw [hlv]
  dsimp only
  rw [copyLevels_refs lrefs h hw]
  simp only [Bool.false_eq_true, if_false, reduceIte]
  exact ⟨_, rfl⟩

theorem msaSweepValue_indexError (h : Heap) (bref : Nat) (lrefs : List Nat)
    (pot dur : Bool) (k : Int) (v : PVal) (m : String) (reps : Int)
    (hpd : (pot || dur) = true)
    (hw : ∀ r ∈ lrefs, r < h.length)
    (hlv : dictGet? (heapGet h bref) "levels" =
      some (PVal.list (lrefs.map PVal.ref)))
    (hnone : pyNorm lrefs.length k = Option.none) :
    msaSweepValue h bref pot dur k m reps v =
      Except.error PyErr.indexError := by
  unfold msaSweepValue
  rw [hlv]
  dsimp only
  rw [copyLevels_refs lrefs h hw]
  dsimp only
  cases pot
  · cases dur
    · cases hpd
    · simp only [Bool.false_eq_true, if_false, if_true, reduceIte]
      rw [setLevelField_err _ _ _ _ _ (by rw [List.length_range']; exact hnone)]
  · simp only [if_true, reduceIte]
    rw [setLevelField_err _ _ _ _ _ (by rw [List.length_range']; exact hnone)]

theorem msaSweepLoop_spec (bref : Nat) (lrefs : List Nat) (pot dur : Bool)
    (k : Int) (m : String) (reps : Int) (j : Nat) (vs : List PVal) :
    ∀ (h : Heap), bref < h.length → (∀ r ∈ lrefs, r < h.length) →
      dictGet? (heapGet h bref) "levels" =
        some (PVal.list (lrefs.map PVal.ref)) →
      pyNorm lrefs.length k = some j →
      (msaSweepLoop bref pot dur k m reps h vs).err = Option.none ∧
      (∀ r, r < h.length →
        ((msaSweepLoop bref pot dur k m reps h vs).heap)[r]? = h[r]?) ∧
      h.length ≤ (msaSweepLoop bref pot dur k m reps h vs).heap.length ∧
      ∀ run ∈ (msaSweepLoop bref pot dur k m reps h vs).runs,
        ∃ v ∈ vs, ∃ s : Nat, run.method = m ∧
          run.params = msaRunParams s h bref lrefs pot dur v j := by
  induction vs with
  | nil =>
    intro h _ _ _ _
    refine ⟨rfl, fun r _ => rfl, Nat.le_refl _, ?_⟩
    intro run hrun
    cases hrun
  | cons v rest ih =>
    intro h hbr hw hlv hj
    have hn : j < lrefs.length := pyNorm_lt hj
    have hval := msaSweepValue_spec h bref lrefs pot dur k v m reps j hbr hw
      hlv hj
    have hfr : ∀ r, r < h.length →
        (h ++ sweptLevels h lrefs pot dur v j)[r]? = h[r]? :=
      fun r hr => List.getElem?_append_left hr
    have hlen : h.length ≤ (h ++ sweptLevels h lrefs pot dur v j).length := by
      simp
    have hbr₄ : bref < (h ++ sweptLevels h lrefs pot dur v j).length :=
      Nat.lt_of_lt_of_le hbr hlen
    have hw₄ : ∀ r ∈ lrefs, r < (h ++ sweptLevels h lrefs pot dur v j).length :=
      fun r hr => Nat.lt_of_lt_of_le (hw r hr) hlen
    have hlv₄ : dictGet? (heapGet (h ++ sweptLevels h lrefs pot dur v j) bref)
        "levels" = some (PVal.list (lrefs.map PVal.ref)) := by
      have : heapGet (h ++ sweptLevels h lrefs pot dur v j) bref =
          heapGet h bref := by
        unfold heapGet
        rw [hfr bref hbr]
      rw [this]
      exact hlv
    have ihr := ih (h ++ sweptLevels h lrefs pot dur v j) hbr₄ hw₄ hlv₄ hj
    simp only [msaSweepLoop, hval]
    refine ⟨ihr.1, ?_, ?_, ?_⟩
    · intro r hr
      rw [ihr.2.1 r (Nat.lt_of_lt_of_le hr hlen), hfr r hr]
    · exact Nat.le_trans hlen ihr.2.2.1
    · intro run hrun
      rcases List.mem_append.mp hrun with hrun | hrun

      · rcases List.mem_map.mp hrun with ⟨i, _, rfl⟩
        exact ⟨v, by simp, h.length, rfl, rfl⟩
      · rcases ihr.2.2.2 run hrun with ⟨v₂, hv₂, s, hm, hp⟩
        refine ⟨v₂, by simp [hv₂], s, hm, ?_⟩
        rw [hp]
        exact msaRunParams_congr s h _ bref lrefs pot dur v₂ j hbr hw hfr hn

theorem msaSweepLoop_noflags (bref : Nat) (lrefs : List Nat) (k : Int)
    (m : String) (reps : Int) (vs : List PVal) :
    ∀ (h : Heap), bref < h.length → (∀ r ∈ lrefs, r < h.length) →
      dictGet? (heapGet h bref) "levels" =
        some (PVal.list (lrefs.map PVal.ref)) →
      (msaSweepLoop bref false false k m reps h vs).err = Option.none := by
  induction vs with
  | nil => intro h _ _ _; rfl
  | cons v rest ih =>
    intro h hbr hw hlv
    obtain ⟨runs, hval⟩ :=
      msaSweepValue_noflags h bref lrefs k v m reps hw hlv
    have hfr : ∀ r, r < h.length →
        (h ++ lrefs.map (fun r => heapGet h r))[r]? = h[r]? :=
      fun r hr => List.getElem?_append_left hr
    have hlen : h.length ≤ (h ++ lrefs.map (fun r => heapGet h r)).length := by
      simp
    have hlv₄ : dictGet? (heapGet (h ++ lrefs.map (fun r => heapGet h r)) bref)
        "levels" = some (PVal.list (lrefs.map PVal.ref)) := by
      rw [heapGet_append_left h _ bref hbr]
      exact hlv
    simp only [msaSweepLoop, hval]
    exact ih (h ++ lrefs.map (fun r => heapGet h r))
      (Nat.lt_of_lt_of_le hbr hlen)
      (fun r hr => Nat.lt_of_lt_of_le (hw r hr) hlen) hlv₄

theorem msaSweepLoop_errCase (bref : Nat) (lrefs : List Nat) (pot dur : Bool)
    (k : Int) (m : String) (reps : Int) (v : PVal) (rest : List PVal)
    (h : Heap) (hpd : (pot || dur) = true)
    (hw : ∀ r ∈ lrefs, r < h.length)
    (hlv : dictGet? (heapGet h bref) "levels" =
      some (PVal.list (lrefs.map PVal.ref)))
    (hnone : pyNorm lrefs.length k = Option.none) :
    msaSweepLoop bref pot dur k m reps h (v :: rest) =
      ⟨[], h, some PyErr.indexError⟩ := by
  have hval := msaSweepValue_indexError h bref lrefs pot dur k v m reps hpd
    hw hlv hnone
  simp only [msaSweepLoop, hval]

/-! Frame lemmas: expansion only allocates fresh dictionaries and mutates
those, so every pre-existing heap object keeps its content. -/

theorem setLevelField_frame (n₀ : Nat) (h : Heap) (raw : List Nat) (i : Int)
    (k : String) (v : PVal) (h₂ : Heap)
    (hok : setLevelField h raw i k v = Except.ok h₂)
    (hfresh : ∀ x ∈ raw, n₀ ≤ x) :
    (∀ r, r < n₀ → h₂[r]? = h[r]?) ∧ h₂.length = h.length := by
  unfold setLevelField at hok
  cases hnorm : pyNorm raw.length i with
  | none => rw [hnorm] at hok; cases hok
  | some j =>
    rw [hnorm] at hok
    simp only [Except.ok.injEq] at hok
    subst hok
    have hjlt : j < raw.length := pyNorm_lt hnorm
    have hmem : raw.getD j 0 ∈ raw := by
      rw [List.getD_eq_getElem?_getD, List.getElem?_eq_getElem hjlt]
      exact List.getElem_mem hjlt
    refine ⟨?_, heapSet_length _ _ _⟩
    intro r hr
    have : raw.getD j 0 ≠ r := by
      have := hfresh _ hmem
      omega
    exact getElem?_heapSet_ne h _ _ r this

theorem msaSweepValue_frame (h : Heap) (bref : Nat) (pot dur : Bool)
    (k : Int) (m : String) (reps : Int) (v : PVal) (runs : List Run)
    (h₃ : Heap)
    (hok : msaSweepValue h bref pot dur k m reps v = Except.ok (runs, h₃)) :
    (∀ r, r < h.length → h₃[r]? = h[r]?) ∧ h.length ≤ h₃.length := by
  unfold msaSweepValue at hok
  cases hd : dictGet? (heapGet h bref) "levels" with
  | none => rw [hd] at hok; cases hok
  | some lv =>
    rw [hd] at hok
    cases lv with
    | list lvls =>
      dsimp only at hok
      cases hcl : copyLevels h lvls with
      | error e => rw [hcl] at hok; cases hok
      | ok p =>
        obtain ⟨h₁, raw⟩ := p
        rw [hcl] at hok
        dsimp only at hok
        obtain ⟨hf₁, hl₁, hfresh⟩ := copyLevels_frame lvls h h₁ raw hcl
        cases hset₁ : (if pot then setLevelField h₁ raw k "level" v
            else Except.ok h₁) with
        | error e => rw [hset₁] at hok; cases hok
        | ok h₂ =>
          rw [hset₁] at hok
          dsimp only at hok
          have hstep₁ : (∀ r, r < h.length → h₂[r]? = h₁[r]?) ∧
              h₂.length = h₁.length := by
            cases pot with
            | false =>
              simp only [Bool.false_eq_true, if_false, reduceIte,
                Except.ok.injEq] at hset₁
              subst hset₁
              exact ⟨fun r _ => rfl, rfl⟩
            | true =>
              simp only [if_true, reduceIte] at hset₁
              have := setLevelField_frame h.length h₁ raw k "level" v h₂
                hset₁ hfresh
              exact ⟨fun r hr => this.1 r hr, this.2⟩
          cases hset₂ : (if dur then setLevelField h₂ raw k "duration" v
              else Except.ok h₂) with
          | error e => rw [hset₂] at hok; cases hok
          | ok h₄ =>
            rw [hset₂] at hok
            dsimp only at hok
            have hstep₂ : (∀ r, r < h.length → h₄[r]? = h₂[r]?) ∧
                h₄.length = h₂.length := by
              cases dur with
              | false =>
                simp only [Bool.false_eq_true, if_false, reduceIte,
                  Except.ok.injEq] at hset₂
                subst hset₂
                exact ⟨fun r _ => rfl, rfl⟩
              | true =>
                simp only [if_true, reduceIte] at hset₂
                have := setLevelField_frame h.length h₂ raw k "duration" v h₄
                  hset₂ hfresh
                exact ⟨fun r hr => this.1 r hr, this.2⟩
            simp only [Except.ok.injEq, Prod.mk.injEq] at hok
            obtain ⟨-, rfl⟩ := hok
            constructor
            · intro r hr
              rw [hstep₂.1 r hr, hstep₁.1 r hr, hf₁ r hr]
            · rw [hstep₂.2, hstep₁.2]
              exact hl₁
    | num n => cases hok
    | str s => cases hok
    | bool b => cases hok
    | none => cases hok
    | ref r => cases hok
    | obj d => cases hok

theorem msaSweepLoop_frame (bref : Nat) (pot dur : Bool) (k : Int)
    (m : String) (reps : Int) (vs : List PVal) :
    ∀ (h : Heap),
      (∀ r, r < h.length →
        ((msaSweepLoop bref pot dur k m reps h vs).heap)[r]? = h[r]?) ∧
      h.length ≤ (msaSweepLoop bref pot dur k m reps h vs).heap.length := by
  induction vs with
  | nil => intro h; exact ⟨fun r _ => rfl, Nat.le_refl _⟩
  | cons v rest ih =>
    intro h
    cases hval : msaSweepValue h bref pot dur k m reps v with
    | error e =>
      constructor
      · intro r hr
        simp only [msaSweepLoop, hval]
      · simp only [msaSweepLoop, hval]
        exact Nat.le_refl _
    | ok p =>
      obtain ⟨runs, h₂⟩ := p
      have hvf := msaSweepValue_frame h bref pot dur k m reps v runs h₂ hval
      have ihr := ih h₂
      simp only [msaSweepLoop, hval]
      constructor
      · intro r hr
        rw [ihr.1 r (Nat.lt_of_lt_of_le hr hvf.2), hvf.1 r hr]
      · exact Nat.le_trans hvf.2 ihr.2

/-! Branch-reduction lemmas for `expandStep` and `runSeq`. -/

theorem expandSingle_heap (h : Heap) (idxStep : Nat) (m : String) (reps : Int)
    (st : Step) : (expandSingle h idxStep m reps st).heap = h := by
  unfold expandSingle
  split
  · rfl
  · split
    · dsimp only
      split <;> first
        | rfl
        | (split <;> rfl)
    · rfl

theorem expandStep_single (h : Heap) (idxStep : Nat) (st : Step) (m : String)
    (hm : st.method = some m) (hty : st.type.getD "single" = "single") :
    expandStep h idxStep st =
      expandSingle h idxStep m (st.repeats.getD 1) st := by
  unfold expandStep
  rw [hm]
  dsimp only
  rw [hty]
  simp

theorem expandStep_genSweep (h : Heap) (idxStep : Nat) (st : Step) (m : String)
    (bref : Nat) (spar : String) (vs : List PVal)
    (hm : st.method = some m)
    (hmb : (m == "MSA" && st.modify_levels.getD false) = false)
    (hty : st.type = some "sweep")
    (hb : st.base_params = some bref) (hsp : st.sweep_param = some spar)
    (hv : st.sweep_values = some vs) :
    expandStep h idxStep st =
      ⟨(vs.map (genSweepValue h bref spar m (st.repeats.getD 1))).flatten, h,
        Option.none⟩ := by
  unfold expandStep
  rw [hm]
  dsimp only
  rw [hty]
  simp only [Option.getD_some, hmb, Bool.false_eq_true, if_false, reduceIte]
  rw [hb]
  dsimp only
  rw [hsp]
  dsimp only
  rw [hv]
  simp

theorem expandStep_msaSweep (h : Heap) (idxStep : Nat) (st : Step)
    (bref : Nat) (k : Int) (vs : List PVal)
    (hm : st.method = some "MSA") (hty : st.type = some "sweep")
    (hml : st.modify_levels = some true) (hb : st.base_params = some bref)
    (hk : st.level_index = some k) (hv : st.sweep_values = some vs) :
    expandStep h idxStep st =
      msaSweepLoop bref (st.sweep_potential.getD false)
        (st.sweep_duration.getD false) k "MSA" (st.repeats.getD 1) h vs := by
  unfold expandStep
  rw [hm]
  dsimp only
  rw [hty, hml]
  simp only [Option.getD_some, Bool.and_true, if_false, reduceIte]
  rw [hb]
  dsimp only
  rw [hk]
  dsimp only
  rw [hv]
  simp

theorem expandStep_unknown_type (h : Heap) (idxStep : Nat) (st : Step)
    (m t : String) (hm : st.method = some m) (hty : st.type = some t)
    (h1 : t ≠ "single") (h2 : t ≠ "sweep") :
    expandStep h idxStep st = ⟨[], h, Option.none⟩ := by
  have hb1 : (t == "single") = false := beq_eq_false_iff_ne.mpr h1
  have hb2 : (t == "sweep") = false := beq_eq_false_iff_ne.mpr h2
  unfold expandStep
  rw [hm]
  dsimp only
  rw [hty]
  simp [hb1, hb2]

theorem runSeq_cons_err (h : Heap) (idxStep : Nat) (st : Step)
    (rest : List Step) (e : PyErr) (he : (expandStep h idxStep st).err = some e) :
    runSeq idxStep h (st :: rest) =
      ⟨(expandStep h idxStep st).runs, (expandStep h idxStep st).heap,
        some e⟩ := by
  simp only [runSeq, he]

theorem runSeq_cons_ok (h : Heap) (idxStep : Nat) (st : Step)
    (rest : List Step) (he : (expandStep h idxStep st).err = Option.none) :
    runSeq idxStep h (st :: rest) =
      ⟨(expandStep h idxStep st).runs ++
          (runSeq (idxStep + 1) (expandStep h idxStep st).heap rest).runs,
        (runSeq (idxStep + 1) (expandStep h idxStep st).heap rest).heap,
        (runSeq (idxStep + 1) (expandStep h idxStep st).heap rest).err⟩ := by
  simp only [runSeq, he]

theorem runSeq_skip_unknown (h : Heap) (idxStep : Nat) (st : Step)
    (rest : List Step) (m t : String) (hm : st.method = some m)
    (hty : st.type = some t) (h1 : t ≠ "single") (h2 : t ≠ "sweep") :
    runSeq idxStep h (st :: rest) = runSeq (idxStep + 1) h rest := by
  have he := expandStep_unknown_type h idxStep st m t hm hty h1 h2
  simp only [runSeq, he]
  rfl

theorem msaSweepLoop_runs_nil (bref : Nat) (lrefs : List Nat)
    (pot dur : Bool) (k : Int) (m : String) (reps : Int) (j : Nat)
    (vs : List PVal) (hreps : reps < 1) :
    ∀ (h : Heap), bref < h.length → (∀ r ∈ lrefs, r < h.length) →
      dictGet? (heapGet h bref) "levels" =
        some (PVal.list (lrefs.map PVal.ref)) →
      pyNorm lrefs.length k = some j →
      (msaSweepLoop bref pot dur k m reps h vs).runs = [] ∧
      (msaSweepLoop bref pot dur k m reps h vs).err = Option.none := by
  induction vs with
  | nil => intro h _ _ _ _; exact ⟨rfl, rfl⟩
  | cons v rest ih =>
    intro h hbr hw hlv hj
    have hval := msaSweepValue_spec h bref lrefs pot dur k v m reps j hbr hw
      hlv hj
    have hfr : ∀ r, r < h.length →
        (h ++ sweptLevels h lrefs pot dur v j)[r]? = h[r]? :=
      fun r hr => List.getElem?_append_left hr
    have hlen : h.length ≤ (h ++ sweptLevels h lrefs pot dur v j).length := by
      simp
    have hlv₄ : dictGet? (heapGet (h ++ sweptLevels h lrefs pot dur v j) bref)
        "levels" = some (PVal.list (lrefs.map PVal.ref)) := by
      have heq : heapGet (h ++ sweptLevels h lrefs pot dur v j) bref =
          heapGet h bref := by
        unfold heapGet
        rw [hfr bref hbr]
      rw [heq]
      exact hlv
    have ihr := ih (h ++ sweptLevels h lrefs pot dur v j)
      (Nat.lt_of_lt_of_le hbr hlen)
      (fun r hr => Nat.lt_of_lt_of_le (hw r hr) hlen) hlv₄ hj
    simp only [msaSweepLoop, hval]
    constructor
    · rw [repIndices_eq_nil reps hreps, List.map_nil, List.nil_append]
      exact ihr.1
    · exact ihr.2

theorem expandSingle_nonMSA (h : Heap) (idxStep : Nat) (m : String)
    (reps : Int) (st : Step) (pref : Nat)
    (hmsa : m ≠ "MSA") (hp : st.params = some pref) :
    expandSingle h idxStep m reps st =
      ⟨(repIndices reps).map (fun i =>
        { title := pyLower m ++ "_step" ++ toString idxStep ++ "_run" ++
            toString i
          method := m
          params := heapGet h pref
          repeat_index := i }), h, Option.none⟩ := by
  have hmb : (m == "MSA") = false := beq_eq_false_iff_ne.mpr hmsa
  unfold expandSingle
  rw [hp]
  dsimp only
  rw [hmb]
  simp

theorem expandSingle_MSA (h : Heap) (idxStep : Nat) (reps : Int) (st : Step)
    (pref : Nat) (raw objs : List PVal)
    (hp : st.params = some pref)
    (hlv : dictGet? (heapGet h pref) "levels" = some (PVal.list raw))
    (hobjs : mkLevelObjs h raw = Except.ok objs) :
    expandSingle h idxStep "MSA" reps st =
      ⟨(repIndices reps).map (fun i =>
        { title := pyLower "MSA" ++ "_step" ++ toString idxStep ++ "_run" ++
            toString i
          method := "MSA"
          params := dictSet (dictSet (dictDrop (heapGet h pref) "levels")
            "_raw_levels" (PVal.list raw)) "levels" (PVal.list objs)
          repeat_index := i }), h, Option.none⟩ := by
  unfold expandSingle
  rw [hp]
  dsimp only
  rw [if_pos (by rfl)]
  rw [hlv]
  dsimp only
  rw [hobjs]

theorem expandStep_frame (h : Heap) (idxStep : Nat) (st : Step) :
    (∀ r, r < h.length → ((expandStep h idxStep st).heap)[r]? = h[r]?) ∧
      h.length ≤ (expandStep h idxStep st).heap.length := by
  have htriv : ∀ (res : StepResult), res.heap = h →
      (∀ r, r < h.length → (res.heap)[r]? = h[r]?) ∧
        h.length ≤ res.heap.length := by
    intro res hres
    rw [hres]
    exact ⟨fun r _ => rfl, Nat.le_refl _⟩
  unfold expandStep
  cases hsm : st.method with
  | none => exact htriv _ rfl
  | some m =>
    dsimp only
    by_cases h1 : (st.type.getD "single" == "single") = true
    · rw [if_pos h1]
      exact htriv _ (expandSingle_heap h idxStep m _ st)
    · rw [if_neg h1]
      by_cases h2 : (st.type.getD "single" == "sweep") = true
      · rw [if_pos h2]
        cases hbp : st.base_params with
        | none => exact htriv _ rfl
        | some bref =>
          dsimp only
          by_cases h3 : (m == "MSA" && st.modify_levels.getD false) = true
          · rw [if_pos h3]
            cases hli : st.level_index with
            | none => exact htriv _ rfl
            | some k =>
              dsimp only
              cases hsv : st.sweep_values with
              | none => exact htriv _ rfl
              | some vals =>
                dsimp only
                exact msaSweepLoop_frame bref _ _ k m _ vals h
          · rw [if_neg h3]
            cases hsp : st.sweep_param with
            | none => exact htriv _ rfl
            | some spar =>
              dsimp only
              cases hsv : st.sweep_values with
              | none => exact htriv _ rfl
              | some vals => exact htriv _ rfl
      · rw [if_neg h2]
        exact htriv _ rfl

/-! Concrete example plans and heaps used by witnesses and counterexamples. -/

/-- A heap holding one CA parameter dictionary (object 0). -/
def caHeap : Heap :=
  [[("e", PVal.num 1), ("run_time", PVal.num 60),
    ("interval_time", PVal.num 1)]]

/-- A plain CA single step. -/
def caStep : Step :=
  { method := some "CA", type := some "single", repeats := some 1,
    params := some 0 }

/-- A heap holding one LSV parameter dictionary (object 0). -/
def lsvHeap : Heap :=
  [[("begin_potential", PVal.num 0), ("scanrate", PVal.num 1)]]

/-- An LSV scan-rate sweep with two values and two repeats. -/
def lsvSweepStep : Step :=
  { method := some "LSV", type := some "sweep", repeats := some 2,
    base_params := some 0, sweep_param := some "scanrate",
    sweep_values := some [PVal.num 3, PVal.num 4] }

/-- A sweep step whose mandatory `sweep_param` key is absent. -/
def brokenSweepStep : Step :=
  { method := some "LSV", type := some "sweep", repeats := some 1,
    base_params := some 0, sweep_values := some [PVal.num 3] }

/-- A heap with an MSA base-parameter dictionary (object 0) whose two level
dictionaries are objects 1 and 2. -/
def msaHeap : Heap :=
  [[("equilibration_time", PVal.num 5), ("interval_time", PVal.num 1),
    ("n_cycles", PVal.num 2), ("levels", PVal.list [PVal.ref 1, PVal.ref 2])],
   [("level", PVal.num 100), ("duration", PVal.num 10)],
   [("level", PVal.num 200), ("duration", PVal.num 20)]]

/-- An MSA level sweep whose `level_index` is -1 (as produced by entering 0
at the 1-indexed prompt of plan_builder.py). -/
def msaNegStep : Step :=
  { method := some "MSA", type := some "sweep", repeats := some 1,
    base_params := some 0, modify_levels := some true,
    level_index := some (-1), sweep_potential := some true,
    sweep_duration := some false, sweep_values := some [PVal.num 7] }

/-- An MSA level sweep of level 0 with both sweep flags set. -/
def msaDualStep : Step :=
  { method := some "MSA", type := some "sweep", repeats := some 1,
    base_params := some 0, modify_levels := some true,
    level_index := some 0, sweep_potential := some true,
    sweep_duration := some true, sweep_values := some [PVal.num 7] }

theorem expandSingle_congr (h : Heap) (idxStep : Nat) (m : String)
    (reps : Int) (st₁ st₂ : Step) (hp : st₁.params = st₂.params) :
    expandSingle h idxStep m reps st₁ = expandSingle h idxStep m reps st₂ := by
  unfold expandSingle
  rw [hp]

/-- C10: a step whose `type` key is absent is expanded exactly as if it had
`type = "single"` — `step.get("type", "single")` defaults, so it is neither
skipped nor an error. -/
theorem absent_type_defaults_to_single (h : Heap) (idxStep : Nat) (st : Step)
    (ht : st.type = Option.none) :
    expandStep h idxStep st =
      expandStep h idxStep { st with type := some "single" } := by
  unfold expandStep
  rw [ht]
  dsimp only
  cases hsm : st.method with
  | none => rfl
  | some m =>
    simp only [Option.getD_none, Option.getD_some]
    rw [if_pos (show (("single" : String) == "single") = true from rfl)]
    exact expandSingle_congr h idxStep m (st.repeats.getD 1) st _ rfl

/-- The CA step with its `type` key removed. -/
def caStepNoType : Step := { caStep with type := Option.none }

/-- C10 witness: the CA step with its `type` key removed expands exactly
like the explicit single-type CA step. -/
theorem absent_type_defaults_to_single_witness :
    expandStep caHeap 1 caStepNoType =
      expandStep caHeap 1 { caStepNoType with type := some "single" } :=
  absent_type_defaults_to_single caHeap 1 caStepNoType rfl

/-- C9: expansion of any step never mutates a pre-existing dictionary: every
heap object allocated before expansion keeps its exact content, because
`dict(base)` and `lvl.copy()` copy and the in-place writes hit only the
fresh copies.  In particular a sweep step's `base_params` and all its level
dictionaries are unchanged. -/
theorem expansion_never_mutates (h : Heap) (idxStep : Nat) (st : Step)
    (r : Nat) (hr : r < h.length) :
    ((expandStep h idxStep st).heap)[r]? = h[r]? ∧
    heapGet (expandStep h idxStep st).heap r = heapGet h r := by
  have hf := expandStep_frame h idxStep st
  refine ⟨hf.1 r hr, ?_⟩
  unfold heapGet
  rw [hf.1 r hr]

/-- C9 witness: after the dual-flag MSA sweep, the original base and level
dictionaries (objects 0-2) still hold their initial content. -/
theorem expansion_never_mutates_witness :
    ((expandStep msaHeap 1 msaDualStep).heap)[1]? =
      some [("level", PVal.num 100), ("duration", PVal.num 10)] ∧
    heapGet (expandStep msaHeap 1 msaDualStep).heap 2 =
      [("level", PVal.num 200), ("duration", PVal.num 20)] := by
  have h1 := expansion_never_mutates msaHeap 1 msaDualStep 1 (by decide)
  have h2 := expansion_never_mutates msaHeap 1 msaDualStep 2 (by decide)
  refine ⟨?_, ?_⟩
  · rw [h1.1]
    rfl
  · rw [h2.2]
    rfl

/-- C7: a single-type step with `repeats = r` expands to exactly `r.toNat`
runs sharing one parameter dictionary, with `repeat_index` running 1..r and
titles `{method}_step{stepIndex}_run{i}` (method lowercased). -/
theorem single_step_spec (h : Heap) (idxStep : Nat) (st : Step) (m : String)
    (r : Int) (pref : Nat)
    (hm : st.method = some m) (hty : st.type = some "single")
    (hr : st.repeats = some r) (hp : st.params = some pref)
    (hmsa : m = "MSA" → ∃ raw objs,
      dictGet? (heapGet h pref) "levels" = some (PVal.list raw) ∧
      mkLevelObjs h raw = Except.ok objs) :
    (expandStep h idxStep st).err = Option.none ∧
    (expandStep h idxStep st).heap = h ∧
    ∃ P : Dict, (expandStep h idxStep st).runs.length = r.toNat ∧
      ∀ t : Nat, t < r.toNat →
        ((expandStep h idxStep st).runs)[t]? =
          some { title := pyLower m ++ "_step" ++ toString idxStep ++
                   "_run" ++ toString (Int.ofNat t + 1)
                 method := m
                 params := P
                 repeat_index := Int.ofNat t + 1 } := by
  rw [expandStep_single h idxStep st m hm (by rw [hty]; rfl), hr]
  simp only [Option.getD_some]
  by_cases hM : m = "MSA"
  · obtain ⟨raw, objs, hlv, hobjs⟩ := hmsa hM
    subst hM
    rw [expandSingle_MSA h idxStep r st pref raw objs hp hlv hobjs]
    refine ⟨rfl, rfl,
      dictSet (dictSet (dictDrop (heapGet h pref) "levels") "_raw_levels"
        (PVal.list raw)) "levels" (PVal.list objs),
      by simp [repIndices_length], ?_⟩
    intro t ht
    rw [List.getElem?_map, repIndices_getElem? r t ht]
    rfl
  · rw [expandSingle_nonMSA h idxStep m r st pref hM hp]
    refine ⟨rfl, rfl, heapGet h pref, by simp [repIndices_length], ?_⟩
    intro t ht
    rw [List.getElem?_map, repIndices_getElem? r t ht]
    rfl

/-- C7 witness: a CA single step with two repeats yields two runs, the
second titled `ca_step1_run2`. -/
theorem single_step_spec_witness :
    (expandStep caHeap 1 { caStep with repeats := some 2 }).runs.length = 2 ∧
    (((expandStep caHeap 1 { caStep with repeats := some 2 }).runs)[1]?).map
      (fun run => run.title) = some "ca_step1_run2" := by
  have hmain := single_step_spec caHeap 1 { caStep with repeats := some 2 }
    "CA" 2 0 rfl rfl rfl rfl (fun hM => absurd hM (by decide))
  obtain ⟨-, -, P, hlen, hidx⟩ := hmain
  refine ⟨hlen, ?_⟩
  rw [hidx 1 (by decide)]
  rfl

/-- C3: counterexample — a single step with `repeats = 0` expands without
any error to zero runs; no InvalidRepeatCount (or any) error exists in the
code, contradicting the claim that `repeats < 1` fails. -/
theorem invalid_repeat_counterexample :
    expandStep caHeap 1 { caStep with repeats := some 0 } =
      ⟨[], caHeap, Option.none⟩ := rfl

/-- C3 (amended): a step with `repeats < 1` does not fail; the repeat loop
`range(1, reps + 1)` is empty, so the step silently contributes zero runs.
Shown for every expansion branch: generic single steps, MSA single steps
(with well-formed levels), steps taking the generic-sweep path (including
MSA sweeps without `modify_levels`), and MSA level sweeps with a valid
level target — the level errors an MSA step can still raise are independent
of `repeats`. -/
theorem repeats_lt_one_amended :
    (∀ (h : Heap) (idxStep : Nat) (st : Step) (m : String) (r : Int)
      (pref : Nat), st.method = some m → m ≠ "MSA" →
      st.type = some "single" → st.repeats = some r → r < 1 →
      st.params = some pref →
      expandStep h idxStep st = ⟨[], h, Option.none⟩) ∧
    (∀ (h : Heap) (idxStep : Nat) (st : Step) (r : Int) (pref : Nat)
      (raw objs : List PVal),
      st.method = some "MSA" → st.type = some "single" →
      st.repeats = some r → r < 1 → st.params = some pref →
      dictGet? (heapGet h pref) "levels" = some (PVal.list raw) →
      mkLevelObjs h raw = Except.ok objs →
      expandStep h idxStep st = ⟨[], h, Option.none⟩) ∧
    (∀ (h : Heap) (idxStep : Nat) (st : Step) (m : String) (r : Int)
      (bref : Nat) (spar : String) (vs : List PVal),
      st.method = some m →
      (m = "MSA" → st.modify_levels.getD false = false) →
      st.type = some "sweep" →
      st.repeats = some r → r < 1 → st.base_params = some bref →
      st.sweep_param = some spar → st.sweep_values = some vs →
      expandStep h idxStep st = ⟨[], h, Option.none⟩) ∧
    (∀ (h : Heap) (idxStep : Nat) (st : Step) (r : Int) (bref : Nat)
      (k : Int) (vs : List PVal) (lrefs : List Nat) (j : Nat),
      st.method = some "MSA" → st.type = some "sweep" →
      st.modify_levels = some true → st.base_params = some bref →
      st.level_index = some k → st.sweep_values = some vs →
      st.repeats = some r → r < 1 →
      bref < h.length → (∀ x ∈ lrefs, x < h.length) →
      dictGet? (heapGet h bref) "levels" =
        some (PVal.list (lrefs.map PVal.ref)) →
      pyNorm lrefs.length k = some j →
      (expandStep h idxStep st).runs = [] ∧
      (expandStep h idxStep st).err = Option.none) := by
  refine ⟨?_, ?_, ?_, ?_⟩
  · intro h idx st m r pref hm hmsa hty hr hlt hp
    rw [expandStep_single h idx st m hm (by rw [hty]; rfl), hr]
    simp only [Option.getD_some]
    rw [expandSingle_nonMSA h idx m r st pref hmsa hp,
      repIndices_eq_nil r hlt]
    rfl
  · intro h idx st r pref raw objs hm hty hr hlt hp hlv hobjs
    rw [expandStep_single h idx st "MSA" hm (by rw [hty]; rfl), hr]
    simp only [Option.getD_some]
    rw [expandSingle_MSA h idx r st pref raw objs hp hlv hobjs,
      repIndices_eq_nil r hlt]
    rfl
  · intro h idx st m r bref spar vs hm hml hty hr hlt hb hsp hv
    have hmb : (m == "MSA" && st.modify_levels.getD false) = false := by
      by_cases hM : m = "MSA"
      · rw [hml hM]
        exact Bool.and_false _
      · rw [beq_eq_false_iff_ne.mpr hM]
        exact Bool.false_and _
    rw [expandStep_genSweep h idx st m bref spar vs hm hmb hty hb hsp hv, hr]
    simp only [Option.getD_some]
    have hone : ∀ v ∈ vs, genSweepValue h bref spar m r v = [] := by
      intro v _
      unfold genSweepValue
      rw [repIndices_eq_nil r hlt]
      rfl
    congr 1
    rw [List.flatten_eq_nil_iff]
    intro l hl
    rcases List.mem_map.mp hl with ⟨v, hv₂, rfl⟩
    exact hone v hv₂
  · intro h idx st r bref k vs lrefs j hm hty hml hb hk hv hr hlt hbr hw
      hlv hj
    rw [expandStep_msaSweep h idx st bref k vs hm hty hml hb hk hv, hr]
    simp only [Option.getD_some]
    exact msaSweepLoop_runs_nil bref lrefs (st.sweep_potential.getD false)
      (st.sweep_duration.getD false) k "MSA" r j vs hlt h hbr hw hlv hj

/-- An MSA single step with `repeats = 0`; its `params` (object 0 of
`msaHeap`) carry a well-formed `levels` list. -/
def msaSingleZeroStep : Step :=
  { method := some "MSA", type := some "single", repeats := some 0,
    params := some 0 }

/-- C3 witness: the amended statement at `repeats = 0` for all four
branches — a generic single step, an MSA single step, a generic sweep, and
an MSA level sweep. -/
theorem repeats_lt_one_amended_witness :
    expandStep caHeap 1 { caStep with repeats := some 0 } =
      ⟨[], caHeap, Option.none⟩ ∧
    expandStep msaHeap 1 msaSingleZeroStep = ⟨[], msaHeap, Option.none⟩ ∧
    expandStep lsvHeap 1 { lsvSweepStep with repeats := some 0 } =
      ⟨[], lsvHeap, Option.none⟩ ∧
    (expandStep msaHeap 1 { msaDualStep with repeats := some 0 }).runs =
      [] ∧
    (expandStep msaHeap 1 { msaDualStep with repeats := some 0 }).err =
      Option.none := by
  have h4 := repeats_lt_one_amended.2.2.2 msaHeap 1
    { msaDualStep with repeats := some 0 } 0 0 0 [PVal.num 7] [1, 2] 0
    rfl rfl rfl rfl rfl rfl rfl (by decide) (by decide) (by decide) rfl rfl
  exact ⟨repeats_lt_one_amended.1 caHeap 1 _ "CA" 0 0 rfl (by decide) rfl
      rfl (by decide) rfl,
    repeats_lt_one_amended.2.1 msaHeap 1 msaSingleZeroStep 0 0
      [PVal.ref 1, PVal.ref 2]
      [PVal.obj [("level", PVal.num 100), ("duration", PVal.num 10)],
       PVal.obj [("level", PVal.num 200), ("duration", PVal.num 20)]]
      rfl rfl rfl (by decide) rfl rfl rfl,
    repeats_lt_one_amended.2.2.1 lsvHeap 1 _ "LSV" 0 0 "scanrate"
      [PVal.num 3, PVal.num 4] rfl (fun hM => absurd hM (by decide)) rfl
      rfl (by decide) rfl rfl rfl,
    h4.1, h4.2⟩

/-- C8: counterexample — a plan whose first step lacks `sweep_param` aborts
the WHOLE channel sequence: the healthy CA step after it contributes no
runs, so step-scoped errors are not caught per step.  (Executed alone, the
CA step would emit one run.) -/
theorem step_isolation_counterexample :
    run_channel lsvHeap [brokenSweepStep, caStep] =
      ⟨[], lsvHeap, some (PyErr.keyError "sweep_param")⟩ ∧
    run_channel lsvHeap [caStep] =
      ⟨[{ title := "ca_step1_run1", method := "CA",
          params := [("begin_potential", PVal.num 0),
            ("scanrate", PVal.num 1)],
          repeat_index := 1 }], lsvHeap, Option.none⟩ := ⟨rfl, rfl⟩

/-- C8 (amended): only a step whose `type` is neither `single` nor `sweep`
is skipped (with a printed warning) while its siblings proceed; any other
step-scoped expansion error escapes the loop and aborts the remaining steps
of that channel's sequence. -/
theorem step_isolation_amended :
    (∀ (h : Heap) (idxStep : Nat) (st : Step) (rest : List Step)
      (m t : String), st.method = some m → st.type = some t →
      t ≠ "single" → t ≠ "sweep" →
      runSeq idxStep h (st :: rest) = runSeq (idxStep + 1) h rest) ∧
    (∀ (h : Heap) (idxStep : Nat) (st : Step) (rest : List Step) (e : PyErr),
      (expandStep h idxStep st).err = some e →
      runSeq idxStep h (st :: rest) =
        ⟨(expandStep h idxStep st).runs, (expandStep h idxStep st).heap,
          some e⟩) :=
  ⟨fun h idx st rest m t hm hty h1 h2 =>
      runSeq_skip_unknown h idx st rest m t hm hty h1 h2,
    fun h idx st rest e he => runSeq_cons_err h idx st rest e he⟩

/-- C8 witness: an unknown-type step is skipped and its sibling proceeds; a
missing-key step aborts the sequence. -/
theorem step_isolation_witness :
    runSeq 1 lsvHeap
        [{ method := some "CV", type := some "weird" }, caStep] =
      runSeq 2 lsvHeap [caStep] ∧
    runSeq 1 lsvHeap [brokenSweepStep, caStep] =
      ⟨[], lsvHeap, some (PyErr.keyError "sweep_param")⟩ :=
  ⟨step_isolation_amended.1 lsvHeap 1 _ [caStep] "CV" "weird" rfl rfl
      (by decide) (by decide),
    step_isolation_amended.2 lsvHeap 1 _ [caStep]
      (PyErr.keyError "sweep_param") rfl⟩

/-- C1: counterexample — with channel 0 succeeding and channel 1 raising
(its sweep step lacks `sweep_param`), the orchestrator performs NO cleanup:
the event list is empty, so channel 0 is neither disconnected nor is the
session saved, and the exception escapes.  This contradicts the claim that
disconnect-all and session-save run even when a channel fails. -/
theorem cleanup_skipped_counterexample :
    (orchestrate [(0, caHeap, [caStep]),
        (1, lsvHeap, [brokenSweepStep])]).1 = [] ∧
    (orchestrate [(0, caHeap, [caStep]),
        (1, lsvHeap, [brokenSweepStep])]).2 =
      some (PyErr.keyError "sweep_param") := ⟨rfl, rfl⟩

/-- C1 (amended): the disconnect gather and the session save execute exactly
when every channel task finishes without an exception; if any channel task
raises, `await asyncio.gather` re-raises and neither cleanup action runs. -/
theorem cleanup_iff_no_channel_error (outcomes : List (Nat × Option PyErr)) :
    ((∀ p ∈ outcomes, p.2 = Option.none) →
      gatherCleanup outcomes =
        (outcomes.map (fun p => CleanupEvent.disconnected p.1) ++
          [CleanupEvent.sessionSaved], Option.none)) ∧
    (∀ (e : PyErr) (p : Nat × Option PyErr), p ∈ outcomes → p.2 = some e →
      (gatherCleanup outcomes).1 = [] ∧
      (gatherCleanup outcomes).2 ≠ Option.none) := by
  constructor
  · intro hall
    unfold gatherCleanup
    rw [List.findSome?_eq_none_iff.mpr hall]
  · intro e p hp hpe
    unfold gatherCleanup
    cases hfs : outcomes.findSome? (fun p => p.2) with
    | some e₂ => exact ⟨rfl, by simp⟩
    | none =>
      exfalso
      have := List.findSome?_eq_none_iff.mp hfs p hp
      rw [hpe] at this
      cases this

/-- C1 witness: both halves of the amended statement at concrete outcome
lists. -/
theorem cleanup_iff_no_channel_error_witness :
    gatherCleanup [(0, Option.none), (1, Option.none)] =
      ([CleanupEvent.disconnected 0, CleanupEvent.disconnected 1,
        CleanupEvent.sessionSaved], Option.none) ∧
    (gatherCleanup [(0, Option.none), (1, some PyErr.indexError)]).1 = [] :=
  ⟨(cleanup_iff_no_channel_error [(0, Option.none), (1, Option.none)]).1
      (by decide),
    ((cleanup_iff_no_channel_error
        [(0, Option.none), (1, some PyErr.indexError)]).2 PyErr.indexError
      (1, some PyErr.indexError) (by decide) rfl).1⟩

/-- C4: counterexample — a plan whose only step has an unrecognized method
and an invalid type loads successfully (there is no `MalformedPlan` check:
`json.load` output is used as-is, only the concentration tag is written). -/
theorem malformed_plan_counterexample :
    loadPlan PVal.none [{ method := some "XYZ", type := some "bogus" }] =
      Except.ok [{ method := some "XYZ", type := some "bogus",
                   concentration := some PVal.none }] := rfl

/-- C4 (amended): plan loading validates nothing — it always succeeds and
preserves each step's `method` and `type` untouched; an unrecognized method
only fails later, when `METHOD_FUNC_MAP[method]` is looked up inside
`run_one` (a KeyError), and a `type` outside {single, sweep} is skipped with
a warning at execution with the remaining steps still running. -/
theorem no_load_validation_amended :
    (∀ (conc : PVal) (seq : List Step), ∃ out,
      loadPlan conc seq = Except.ok out ∧ out.length = seq.length ∧
      ∀ i : Nat, (out[i]?).map Step.method = (seq[i]?).map Step.method ∧
        (out[i]?).map Step.type = (seq[i]?).map Step.type) ∧
    (∀ m : String, methodLookup m = Except.error (PyErr.keyError m) ↔
      m ∉ ["LSV", "CV", "SWV", "CA", "MSA"]) ∧
    (∀ (h : Heap) (idxStep : Nat) (st : Step) (rest : List Step)
      (m t : String), st.method = some m → st.type = some t →
      t ≠ "single" → t ≠ "sweep" →
      runSeq idxStep h (st :: rest) = runSeq (idxStep + 1) h rest) := by
  refine ⟨?_, ?_, ?_⟩
  · intro conc seq
    refine ⟨_, rfl, by simp [loadPlan], ?_⟩
    intro i
    constructor <;> rw [List.getElem?_map] <;> cases seq[i]? <;> rfl
  · intro m
    constructor
    · intro hlk hmem
      fin_cases hmem <;> exact Except.noConfusion hlk
    · intro hmem
      unfold methodLookup
      cases hfind : METHOD_FUNC_MAP.find? (fun p => p.1 == m) with
      | none => rfl
      | some p =>
        exfalso
        have hpm : p.1 = m := by
          have := List.find?_some hfind
          simpa using this
        have hpmem : p ∈ METHOD_FUNC_MAP := List.mem_of_find?_eq_some hfind
        apply hmem
        rw [← hpm]
        fin_cases hpmem <;> decide
  · exact fun h idx st rest m t hm hty h1 h2 =>
      runSeq_skip_unknown h idx st rest m t hm hty h1 h2

/-- C4 witness: an unrecognized method only fails at the dispatch-table
lookup, and an unknown-type step is skipped at execution time. -/
theorem no_load_validation_witness :
    methodLookup "XYZ" = Except.error (PyErr.keyError "XYZ") ∧
    runSeq 1 lsvHeap
        [{ method := some "CV", type := some "weird" }, caStep] =
      runSeq 2 lsvHeap [caStep] :=
  ⟨(no_load_validation_amended.2.1 "XYZ").mpr (by decide),
    no_load_validation_amended.2.2 lsvHeap 1 _ [caStep] "CV" "weird" rfl rfl
      (by decide) (by decide)⟩

/-- C5: a non-MSA sweep step with values `[v1..vn]` and `repeats = r`
expands, error-free and without touching the heap, to exactly `n * r` runs
in the order `(v1,1)..(v1,r),(v2,1)..(vn,r)`; the run at block `i`, offset
`t` carries `base_params` with only `sweep_param` overwritten to `v(i+1)`,
`repeat_index = t + 1` and title `{method}_{sweep_param}{v}_run{t+1}`. -/
theorem generic_sweep_spec (h : Heap) (idxStep : Nat) (st : Step) (m : String)
    (bref : Nat) (spar : String) (vs : List PVal) (r : Int)
    (hm : st.method = some m) (hmsa : m ≠ "MSA") (hty : st.type = some "sweep")
    (hb : st.base_params = some bref) (hsp : st.sweep_param = some spar)
    (hv : st.sweep_values = some vs) (hr : st.repeats = some r) :
    (expandStep h idxStep st).err = Option.none ∧
    (expandStep h idxStep st).heap = h ∧
    (expandStep h idxStep st).runs.length = vs.length * r.toNat ∧
    ∀ (i t : Nat) (hi : i < vs.length), t < r.toNat →
      ((expandStep h idxStep st).runs)[i * r.toNat + t]? =
        some { title := pyLower m ++ "_" ++ spar ++
                 pyStr (vs.get ⟨i, hi⟩) ++ "_run" ++
                 toString (Int.ofNat t + 1)
               method := m
               params := dictSet (heapGet h bref) spar (vs.get ⟨i, hi⟩)
               repeat_index := Int.ofNat t + 1 } := by
  rw [expandStep_genSweep h idxStep st m bref spar vs hm
    (by rw [beq_eq_false_iff_ne.mpr hmsa]; exact Bool.false_and _)
    hty hb hsp hv, hr, Option.getD_some]
  have hB : ∀ v ∈ vs, (genSweepValue h bref spar m r v).length = r.toNat := by
    intro v _
    unfold genSweepValue
    rw [List.length_map, repIndices_length]
  refine ⟨rfl, rfl, ?_, ?_⟩
  · exact flatten_blocks_length vs _ r.toNat hB
  · intro i t hi ht
    rw [flatten_blocks_getElem? r.toNat vs _ hB i t hi ht]
    unfold genSweepValue
    rw [List.getElem?_map, repIndices_getElem? r t ht]
    rfl

/-- C5 witness: the two-value, two-repeat LSV sweep, checked at block 1,
offset 0 — the third emitted run. -/
theorem generic_sweep_witness :
    ((expandStep lsvHeap 1 lsvSweepStep).runs)[2]? =
      some { title := "lsv_scanrate4_run1"
             method := "LSV"
             params := [("begin_potential", PVal.num 0),
               ("scanrate", PVal.num 4)]
             repeat_index := 1 } := by
  have hmain := generic_sweep_spec lsvHeap 1 lsvSweepStep "LSV" 0 "scanrate"
    [PVal.num 3, PVal.num 4] 2 rfl (by decide) rfl rfl rfl rfl rfl
  have hinst := hmain.2.2.2 1 0 (by decide) (by decide)
  exact hinst

/-- C6: for an MSA sweep of level `k` (in range), every expanded run's
parameters agree with `base_params` on every key other than the rebuilt
`levels`/`_raw_levels`, and its materialized `levels` equal the base level
contents with ONLY position `k` replaced: `level` gets the swept value when
`sweep_potential` is set, then `duration` when `sweep_duration` is set (both
fields receive it when both flags are set). -/
theorem msa_sweep_overwrite_spec (h : Heap) (idxStep : Nat) (st : Step)
    (bref : Nat) (k : Int) (vs : List PVal) (lrefs : List Nat)
    (hm : st.method = some "MSA") (hty : st.type = some "sweep")
    (hml : st.modify_levels = some true) (hb : st.base_params = some bref)
    (hk : st.level_index = some k) (hv : st.sweep_values = some vs)
    (hbr : bref < h.length) (hw : ∀ r ∈ lrefs, r < h.length)
    (hlv : dictGet? (heapGet h bref) "levels" =
      some (PVal.list (lrefs.map PVal.ref)))
    (hk0 : 0 ≤ k) (hklen : k < (lrefs.length : Int)) :
    (expandStep h idxStep st).err = Option.none ∧
    ∀ run ∈ (expandStep h idxStep st).runs, ∃ v ∈ vs,
      run.method = "MSA" ∧
      (∀ key : String, key ≠ "levels" → key ≠ "_raw_levels" →
        dictGet? run.params key = dictGet? (heapGet h bref) key) ∧
      dictGet? run.params "levels" =
        some (PVal.list
          (((lrefs.map (fun x => heapGet h x)).set k.toNat
            (sweepOverwrite (st.sweep_potential.getD false)
              (st.sweep_duration.getD false) v
              (heapGet h (lrefs.getD k.toNat 0)))).map PVal.obj)) := by
  have hj : pyNorm lrefs.length k = some k.toNat :=
    pyNorm_of_nonneg hk0 hklen
  rw [expandStep_msaSweep h idxStep st bref k vs hm hty hml hb hk hv]
  have hloop := msaSweepLoop_spec bref lrefs (st.sweep_potential.getD false)
    (st.sweep_duration.getD false) k "MSA" (st.repeats.getD 1) k.toNat vs h
    hbr hw hlv hj
  refine ⟨hloop.1, ?_⟩
  intro run hrun
  rcases hloop.2.2.2 run hrun with ⟨v, hvmem, s, hmeth, hparams⟩
  refine ⟨v, hvmem, hmeth, ?_, ?_⟩
  · intro key h1 h2
    rw [hparams]
    unfold msaRunParams
    rw [dictGet?_dictSet_ne _ _ _ _ h1, dictGet?_dictSet_ne _ _ _ _ h2,
      dictGet?_dictDrop_ne _ _ _ h1]
  · rw [hparams]
    unfold msaRunParams sweptLevels
    rw [dictGet?_dictSet_self]

/-- C6 witness: the dual-flag MSA sweep of level 0 — the single run's
`equilibration_time` matches the base and its materialized levels show value
7 written to BOTH fields of level 0 only. -/
theorem msa_sweep_overwrite_witness :
    (expandStep msaHeap 1 msaDualStep).err = Option.none ∧
    dictGet? ((expandStep msaHeap 1 msaDualStep).runs.getD 0
        ⟨"", "", [], 0⟩).params "equilibration_time" =
      some (PVal.num 5) ∧
    dictGet? ((expandStep msaHeap 1 msaDualStep).runs.getD 0
        ⟨"", "", [], 0⟩).params "levels" =
      some (PVal.list
        [PVal.obj [("level", PVal.num 7), ("duration", PVal.num 7)],
         PVal.obj [("level", PVal.num 200), ("duration", PVal.num 20)]]) := by
  have hmain := msa_sweep_overwrite_spec msaHeap 1 msaDualStep 0 0
    [PVal.num 7] [1, 2] rfl rfl rfl rfl rfl rfl (by decide) (by decide) rfl
    (by decide) (by decide)
  have hrun : (expandStep msaHeap 1 msaDualStep).runs.getD 0
      ⟨"", "", [], 0⟩ ∈ (expandStep msaHeap 1 msaDualStep).runs :=
    List.Mem.head _
  rcases hmain.2 _ hrun with ⟨v, hvmem, -, hother, hlevels⟩
  have hv7 : v = PVal.num 7 := List.mem_singleton.mp hvmem
  subst hv7
  exact ⟨hmain.1,
    hother "equilibration_time" (by decide) (by decide), hlevels⟩

/-- C2: counterexample — an MSA sweep with `level_index = -1` over two
levels raises no error at all and silently overwrites the LAST level
(Python negative indexing), refuting both directions of the claimed
equivalence: no `InvalidSweepTarget` for a negative index, and a level IS
silently selected. -/
theorem invalid_sweep_target_counterexample :
    (expandStep msaHeap 1 msaNegStep).err = Option.none ∧
    ((expandStep msaHeap 1 msaNegStep).runs.map (fun run =>
      dictGet? run.params "levels")) =
      [some (PVal.list
        [PVal.obj [("level", PVal.num 100), ("duration", PVal.num 10)],
         PVal.obj [("level", PVal.num 7), ("duration", PVal.num 20)]])] :=
  ⟨rfl, rfl⟩

/-- C2 (amended): for a well-formed MSA level sweep, an IndexError is raised
iff `sweep_values` is nonempty, at least one sweep flag is set, and
`level_index ≥ len(levels)` or `level_index < -len(levels)`; otherwise the
step expands without error — in particular `level_index ∈ [-len, -1]`
silently selects the level `len + level_index` from the back. -/
theorem invalid_sweep_target_amended (h : Heap) (idxStep : Nat) (st : Step)
    (bref : Nat) (k : Int) (vs : List PVal) (lrefs : List Nat)
    (hm : st.method = some "MSA") (hty : st.type = some "sweep")
    (hml : st.modify_levels = some true) (hb : st.base_params = some bref)
    (hk : st.level_index = some k) (hv : st.sweep_values = some vs)
    (hbr : bref < h.length) (hw : ∀ r ∈ lrefs, r < h.length)
    (hlv : dictGet? (heapGet h bref) "levels" =
      some (PVal.list (lrefs.map PVal.ref))) :
    ((expandStep h idxStep st).err = some PyErr.indexError ↔
      (vs ≠ [] ∧
        (st.sweep_potential.getD false || st.sweep_duration.getD false) =
          true ∧
        ((lrefs.length : Int) ≤ k ∨ k < -(lrefs.length : Int)))) ∧
    ((expandStep h idxStep st).err = Option.none ↔
      ¬(vs ≠ [] ∧
        (st.sweep_potential.getD false || st.sweep_duration.getD false) =
          true ∧
        ((lrefs.length : Int) ≤ k ∨ k < -(lrefs.length : Int)))) := by
  rw [expandStep_msaSweep h idxStep st bref k vs hm hty hml hb hk hv]
  by_cases hvs : vs = []
  · subst hvs
    simp [msaSweepLoop]
  · obtain ⟨v, rest, rfl⟩ := List.exists_cons_of_ne_nil hvs
    by_cases hpd : (st.sweep_potential.getD false ||
        st.sweep_duration.getD false) = true
    · cases hnorm : pyNorm lrefs.length k with
      | some j =>
        have hok := (msaSweepLoop_spec bref lrefs
          (st.sweep_potential.getD false) (st.sweep_duration.getD false) k
          "MSA" (st.repeats.getD 1) j (v :: rest) h hbr hw hlv hnorm).1
        have hcond : ¬((lrefs.length : Int) ≤ k ∨
            k < -(lrefs.length : Int)) := by
          intro hc
          rw [← pyNorm_eq_none_iff, hnorm] at hc
          cases hc
        rw [hok]
        simp [hcond]
      | none =>
        have herr := msaSweepLoop_errCase bref lrefs
          (st.sweep_potential.getD false) (st.sweep_duration.getD false) k
          "MSA" (st.repeats.getD 1) v rest h hpd hw hlv hnorm
        have hcond := pyNorm_eq_none_iff.mp hnorm
        rw [herr]
        simp [hpd, hcond]
    · have hp1 : st.sweep_potential.getD false = false := by
        cases hx : st.sweep_potential.getD false
        · rfl
        · rw [hx] at hpd
          simp at hpd
      have hp2 : st.sweep_duration.getD false = false := by
        cases hx : st.sweep_duration.getD false
        · rfl
        · rw [hx] at hpd
          simp at hpd
      rw [hp1, hp2]
      have hok := msaSweepLoop_noflags bref lrefs k "MSA"
        (st.repeats.getD 1) (v :: rest) h hbr hw hlv
      rw [hok]
      simp [hp1, hp2]

/-- An MSA dual-flag sweep whose `level_index` is out of range. -/
def msaOutStep : Step := { msaDualStep with level_index := some 5 }

/-- C2 witness: the amended equivalence at a negative in-range index (no
error) and at an out-of-range index (IndexError). -/
theorem invalid_sweep_target_witness :
    (expandStep msaHeap 1 msaNegStep).err = Option.none ∧
    (expandStep msaHeap 1 msaOutStep).err = some PyErr.indexError := by
  constructor
  · exact (invalid_sweep_target_amended msaHeap 1 msaNegStep 0 (-1)
      [PVal.num 7] [1, 2] rfl rfl rfl rfl rfl rfl (by decide) (by decide)
      rfl).2.mpr (fun hc => absurd hc.2.2 (by decide))
  · exact (invalid_sweep_target_amended msaHeap 1 msaOutStep 0 5
      [PVal.num 7] [1, 2] rfl rfl rfl rfl rfl rfl (by decide) (by decide)
      rfl).1.mpr ⟨by simp, rfl, by decide⟩

end PalmSens
